import Mathlib

/-!
Verification of the condure worker event loop (src/server.rs).

Byte strings are modelled as `List Nat` (each element an octet value).
Machine integers (`usize`, `u32`) are modelled as `Nat`, with explicit
`2 ^ 64` bounds where Rust's checked parsing can overflow.
Fallible operations return `Option`; a `none` models Rust's `Err`
(or, where noted, a `panic!`/`unwrap` failure).
-/

namespace Condure

/-- RESP_SENDER_BOUND from src/server.rs line 57: per-connection inbox capacity. -/
def RESP_SENDER_BOUND : Nat := 1

/-- MSG_RETAINED_MAX from src/server.rs line 67: size of the per-mode scratch
arena, one slot per simultaneously retained parsed bus response. -/
def MSG_RETAINED_MAX : Nat := 1 + RESP_SENDER_BOUND

/-- KEEP_ALIVE_TIMEOUT_MS from src/server.rs line 89. -/
def KEEP_ALIVE_TIMEOUT_MS : Nat := 45000

/-- KEEP_ALIVE_BATCH_MS from src/server.rs line 90. -/
def KEEP_ALIVE_BATCH_MS : Nat := 100

/-- KEEP_ALIVE_BATCHES from src/server.rs line 92. -/
def KEEP_ALIVE_BATCHES : Nat := KEEP_ALIVE_TIMEOUT_MS / KEEP_ALIVE_BATCH_MS

/-- Modelled from the spec: zhttppacket::IDS_MAX is defined in the codec module
(src/zhttppacket.rs), which is not part of the sources under verification.
The spec states it is codec-defined and at most 64; we fix it at 64. -/
def IDS_MAX : Nat := 64

/-- Index of the first occurrence of byte `t` in a byte list, mirroring the
enumerate-and-break loops of get_key and get_addr_and_offset. -/
def findByte (t : Nat) : List Nat → Option Nat
  | [] => none
  | b :: bs => if b = t then some 0 else (findByte t bs).map (· + 1)

/-- ASCII decimal digit test (bytes 0x30..0x39). -/
def isDigitByte (b : Nat) : Bool := 48 ≤ b && b ≤ 57

/-- Accumulating decimal value of a digit-byte list (most significant first). -/
def decValAux (acc : Nat) : List Nat → Nat
  | [] => acc
  | d :: ds => decValAux (acc * 10 + (d - 48)) ds

/-- Rust `str::parse::<usize>()` on a byte segment: an optional leading
ASCII plus sign, then one or more decimal digits, with the value required
to fit in 64 bits (overflow during accumulation is an error). -/
def parseUsize (s : List Nat) : Option Nat :=
  let ds := match s with
    | b :: rest => if b = 43 then rest else s
    | [] => s
  if ds ≠ [] ∧ ds.all isDigitByte then
    let v := decValAux 0 ds
    if v < 2 ^ 64 then some v else none
  else none

/-- UTF-8 continuation byte test (0x80..0xBF). -/
def isContByte (b : Nat) : Bool := 128 ≤ b && b ≤ 191

/-- UTF-8 validation automaton: the first argument lists the byte ranges
still expected to finish the current multi-byte sequence (empty when at a
character boundary). At a boundary the lead byte selects the continuation
ranges of RFC 3629 / Rust std::str::from_utf8: C2-DF expect one
continuation byte; E0 expects A0-BF then 80-BF; E1-EC and EE-EF expect two
continuation bytes; ED expects 80-9F then 80-BF; F0 expects 90-BF then two
continuation bytes; F1-F3 expect three continuation bytes; F4 expects 80-8F
then two continuation bytes; anything else (stray continuation bytes,
C0-C1, F5-FF) is invalid. -/
def utf8Go : List (Nat × Nat) → List Nat → Bool
  | [], [] => true
  | [], b :: rest =>
    if b < 128 then utf8Go [] rest
    else if 194 ≤ b && b ≤ 223 then utf8Go [(128, 191)] rest
    else if b = 224 then utf8Go [(160, 191), (128, 191)] rest
    else if (225 ≤ b && b ≤ 236) || b = 238 || b = 239 then
      utf8Go [(128, 191), (128, 191)] rest
    else if b = 237 then utf8Go [(128, 159), (128, 191)] rest
    else if b = 240 then utf8Go [(144, 191), (128, 191), (128, 191)] rest
    else if 241 ≤ b && b ≤ 243 then
      utf8Go [(128, 191), (128, 191), (128, 191)] rest
    else if b = 244 then utf8Go [(128, 143), (128, 191), (128, 191)] rest
    else false
  | _ :: _, [] => false
  | (lo, hi) :: need, b :: rest =>
    if lo ≤ b && b ≤ hi then utf8Go need rest else false

/-- UTF-8 validity of a byte list, as checked by Rust str::from_utf8. -/
def validUtf8 (l : List Nat) : Bool := utf8Go [] l

/-- get_key from src/server.rs lines 125-161: locate the first two ASCII minus
bytes, take the segment between them, require it to be valid UTF-8, and parse
it as a usize. -/
def get_key (id : List Nat) : Option Nat :=
  match findByte 45 id with
  | none => none
  | some i1 =>
    let rest := id.drop (i1 + 1)
    match findByte 45 rest with
    | none => none
    | some j =>
      let seg := rest.take j
      if validUtf8 seg then parseUsize seg else none

/-- get_addr_and_offset from src/server.rs lines 103-123: split at the first
space byte; the part before must be valid UTF-8; the offset is the position
just after the space. -/
def get_addr_and_offset (msg : List Nat) : Option (List Nat × Nat) :=
  match findByte 32 msg with
  | none => none
  | some pos =>
    let addr := msg.take pos
    if validUtf8 addr then some (addr, pos + 1) else none

/-- Decimal digit bytes of a natural number, most significant first, as
produced by Rust Display formatting of an unsigned integer. The fuel
argument makes the division recursion structural; any fuel above the value
itself is sufficient. -/
def natDecAux : Nat → Nat → List Nat → List Nat
  | 0, _, acc => acc
  | fuel + 1, n, acc =>
    if n < 10 then (48 + n) :: acc
    else natDecAux fuel (n / 10) ((48 + n % 10) :: acc)

def natDec (n : Nat) : List Nat := natDecAux (n + 1) n []

/-- Lowercase hex digit byte, as produced by Rust LowerHex formatting. -/
def hexDigitByte (d : Nat) : Nat := if d < 10 then 48 + d else 87 + d

/-- Lowercase hexadecimal digit bytes of a natural number, most significant
first, as produced by Rust LowerHex formatting, with structural fuel. -/
def natHexAux : Nat → Nat → List Nat → List Nat
  | 0, _, acc => acc
  | fuel + 1, n, acc =>
    if n < 16 then hexDigitByte n :: acc
    else natHexAux fuel (n / 16) (hexDigitByte (n % 16) :: acc)

def natHex (n : Nat) : List Nat := natHexAux (n + 1) n []

/-- Worker::gen_id from src/server.rs lines 921-934: format
worker_id, minus, slot key, minus, lowercase-hex cid into a 32-byte buffer.
The write panics when the rendering does not fit in 32 bytes; a panic is
modelled as `none`. -/
def gen_id (id ckey cid : Nat) : Option (List Nat) :=
  let s := natDec id ++ [45] ++ natDec ckey ++ [45] ++ natHex cid
  if s.length ≤ 32 then some s else none

/-! ## KeySet (src/server.rs lines 673-713) -/

/-- KeySet: a deduping FIFO of slot keys. `index` is the membership bit per
key, `queue` the FIFO order. -/
structure KeySet where
  index : List Bool
  queue : List Nat
  deriving Repr, DecidableEq

namespace KeySet

/-- KeySet::new from src/server.rs lines 679-688. -/
def new (capacity : Nat) : KeySet :=
  { index := List.replicate capacity false, queue := [] }

/-- KeySet::add from src/server.rs lines 690-699: no-op when the key is
already marked, otherwise push to the back and mark. -/
def add (s : KeySet) (key : Nat) : KeySet :=
  if s.index.getD key false then s
  else { index := s.index.set key true, queue := s.queue ++ [key] }

/-- KeySet::take from src/server.rs lines 701-712: pop the front of the
queue and unmark it. -/
def take (s : KeySet) : Option (Nat × KeySet) :=
  match s.queue with
  | [] => none
  | k :: rest => some (k, { index := s.index.set k false, queue := rest })

/-- Repeatedly call take, collecting outputs, with explicit fuel. -/
def drain : Nat → KeySet → List Nat
  | 0, _ => []
  | n + 1, s =>
    match s.take with
    | none => []
    | some (k, s') => k :: drain n s'

/-- Well-formedness maintained by the worker: the queue has no duplicates,
membership in the queue matches the index bits, and queued keys are in
range. -/
def Wf (s : KeySet) : Prop :=
  s.queue.Nodup ∧ (∀ k, k ∈ s.queue ↔ s.index.getD k false = true) ∧
    ∀ k ∈ s.queue, k < s.index.length

end KeySet

/-! ## Batch (src/server.rs lines 715-853)

The Rust Batch stores entries in a node slab threaded through per-address
intrusive lists. Every node is in exactly one address list, so the slab is
represented here by the per-address queues themselves: `addrs` pairs each
backend address with its FIFO of connection keys, and the slab occupancy is
the total queued length. -/

structure Batch where
  capacity : Nat
  addrs : List (List Nat × List Nat)
  addr_index : Nat
  last_group_ckeys : List Nat
  deriving Repr, DecidableEq

namespace Batch

/-- Batch::new from src/server.rs lines 744-752. -/
def new (capacity : Nat) : Batch :=
  { capacity := capacity, addrs := [], addr_index := 0, last_group_ckeys := [] }

/-- Batch::len: the node slab occupancy, i.e. total queued entries. -/
def len (b : Batch) : Nat := (b.addrs.map (fun a => a.2.length)).sum

/-- Batch::is_empty from src/server.rs lines 762-764. -/
def is_empty (b : Batch) : Bool := b.len == 0

/-- Batch::clear from src/server.rs lines 766-770: clears the address table,
the nodes and the cursor, but not last_group_ckeys. -/
def clear (b : Batch) : Batch :=
  { b with addrs := [], addr_index := 0 }

/-- Position of `to_addr` in the address table: the Rust loop scans all
entries and keeps the last matching index, defaulting to the table length. -/
def findPos (addrs : List (List Nat × List Nat)) (to_addr : List Nat) : Nat :=
  addrs.enum.foldl (fun pos x => if x.2.1 = to_addr then x.1 else pos) addrs.length

/-- Append a connection key to the queue at position `pos`. -/
def pushAt (addrs : List (List Nat × List Nat)) (pos ckey : Nat) :
    List (List Nat × List Nat) :=
  match addrs.get? pos with
  | some (a, q) => addrs.set pos (a, q ++ [ckey])
  | none => addrs

/-- Batch::add from src/server.rs lines 772-800: find or append the address
entry (the append happens even when the subsequent capacity check fails),
then, if the node slab is not full, push the key onto that address's list.
Returns the BatchKey address index on success, `none` on Err. -/
def add (b : Batch) (to_addr : List Nat) (ckey : Nat) : Batch × Option Nat :=
  let pos := findPos b.addrs to_addr
  let addrs1 := if pos = b.addrs.length then b.addrs ++ [(to_addr, [])] else b.addrs
  if b.len = b.capacity then
    ({ b with addrs := addrs1 }, none)
  else
    ({ b with addrs := pushAt addrs1 pos ckey }, some pos)

/-- Number of leading entries with an empty queue. -/
def countLeadingEmpty : List (List Nat × List Nat) → Nat
  | [] => 0
  | a :: rest => if a.2.isEmpty then countLeadingEmpty rest + 1 else 0

/-- Advance the address cursor past empty address lists, mirroring the while
loop at src/server.rs lines 814-816: starting at `i`, step forward while the
current entry exists and its queue is empty. -/
def skipIndex (addrs : List (List Nat × List Nat)) (i : Nat) : Nat :=
  i + countLeadingEmpty (addrs.drop i)

/-- Batch::take_group from src/server.rs lines 809-848: advance the cursor to
the next address with queued entries; if none remains, self-clear and return
none; otherwise pop up to IDS_MAX keys from that address's FIFO, record them
in last_group_ckeys, and return the address together with the snapshots
produced by get_ids (an id byte string and a seq value per key). -/
def take_group (b : Batch) (get_ids : Nat → List Nat × Nat) :
    Batch × Option (List Nat × List (List Nat × Nat)) :=
  let i := skipIndex b.addrs b.addr_index
  if i < b.addrs.length then
    let entry := b.addrs.getD i ([], [])
    let taken := entry.2.take IDS_MAX
    let rest := entry.2.drop IDS_MAX
    let b' : Batch :=
      { b with
        addrs := b.addrs.set i (entry.1, rest)
        addr_index := i
        last_group_ckeys := taken }
    (b', some (entry.1, taken.map get_ids))
  else
    (b.clear, none)

end Batch

/-! ## Keep-alive batching (src/server.rs lines 977-979 and 1728-1768) -/

/-- ka_batch computation from src/server.rs line 977. -/
def ka_batch (stream_maxconn : Nat) : Nat :=
  (stream_maxconn + (KEEP_ALIVE_BATCHES - 1)) / KEEP_ALIVE_BATCHES

/-- The worker's view of one connection slot during the keep-alive scan:
whether the slot holds a stream-mode connection and its shared to_addr. -/
structure ConnSlot where
  isStream : Bool
  to_addr : Option (List Nat)
  deriving Repr, DecidableEq

/-- Advance of next_keep_alive_index inside the scan loop (src/server.rs
lines 1738-1743): increment, wrapping to 0 and raising the wrapped flag when
the slot-table capacity `n` is reached. -/
def scanNext (n idx : Nat) (wrapped : Bool) : Nat × Bool :=
  if idx + 1 = n then (0, true) else (idx + 1, wrapped)

/-- The keep-alive scan loop body from src/server.rs lines 1728-1764:
iterate at most `fuel` times (the Rust loop bound is batch.capacity()),
stopping after the index wraps; for each occupied stream slot with a known
handler address, batch.add(addr, key).unwrap(). The slot list has one entry
per slot of the connection slab (conns.capacity()). Returns the batch, the
next scan index and the list of examined slot keys; `none` models the unwrap
panicking because Batch::add returned Err. -/
def keep_alive_scan (conns : List (Option ConnSlot)) :
    Nat → Nat → Bool → Batch → Option (Batch × Nat × List Nat)
  | 0, idx, _, b => some (b, idx, [])
  | fuel + 1, idx, wrapped, b =>
    if wrapped then some (b, idx, [])
    else
      match conns.getD idx none with
      | some c =>
        if c.isStream then
          match c.to_addr with
          | some addr =>
            match b.add addr idx with
            | (b', some _) =>
              (keep_alive_scan conns fuel (scanNext conns.length idx wrapped).1
                  (scanNext conns.length idx wrapped).2 b').map
                (fun r => (r.1, r.2.1, idx :: r.2.2))
            | (_, none) => none
          | none =>
            (keep_alive_scan conns fuel (scanNext conns.length idx wrapped).1
                (scanNext conns.length idx wrapped).2 b).map
              (fun r => (r.1, r.2.1, idx :: r.2.2))
        else
          (keep_alive_scan conns fuel (scanNext conns.length idx wrapped).1
              (scanNext conns.length idx wrapped).2 b).map
            (fun r => (r.1, r.2.1, idx :: r.2.2))
      | none =>
        (keep_alive_scan conns fuel (scanNext conns.length idx wrapped).1
            (scanNext conns.length idx wrapped).2 b).map
          (fun r => (r.1, r.2.1, idx :: r.2.2))

/-- The keep-alive phase guard from src/server.rs line 1728: the scan runs
only when the batch is empty and now has reached next_keep_alive_time; it
then advances next_keep_alive_time by one interval. Times are in
milliseconds. -/
def keep_alive_phase (conns : List (Option ConnSlot)) (b : Batch)
    (now next_keep_alive_time next_keep_alive_index : Nat) :
    Option (Batch × Nat × Nat × List Nat) :=
  if b.is_empty ∧ next_keep_alive_time ≤ now then
    (keep_alive_scan conns b.capacity next_keep_alive_index false b).map
      (fun r => (r.1, r.2.1, next_keep_alive_time + KEEP_ALIVE_BATCH_MS, r.2.2))
  else
    some (b, next_keep_alive_index, next_keep_alive_time, [])

/-! ## Batch emission (src/server.rs lines 191-221 and 1770-1816) -/

/-- send_batched from src/server.rs lines 191-221: assert the group size
bound, serialize (the codec is external, represented by the `ser` oracle
giving the serialized size or failure), and send the multi-id packet only
when serialization succeeds. Returns the message put on the wire, or none
when nothing was sent (serialization failure; an over-long group would
panic, also modelled as none). -/
def send_batched (addr : List Nat) (ids : List (List Nat × Nat))
    (ser : List (List Nat × Nat) → Option Nat) :
    Option (List Nat × List (List Nat × Nat)) :=
  if ids.length ≤ IDS_MAX then
    match ser ids with
    | some _ => some (addr, ids)
    | none => none
  else none

/-- One turn of the keep-alive emission loop from src/server.rs lines
1779-1808: take a group snapshotting each connection's (id, out_seq), call
send_batched, then increment out_seq for every connection recorded in
last_group_ckeys - unconditionally, whether or not anything was sent.
`cid` gives each connection's current id; `outSeq` the per-connection
counter. Returns the batch, the sent message (if any) and the updated
counters. -/
def emit_step (b : Batch) (cid : Nat → List Nat) (outSeq : Nat → Nat)
    (ser : List (List Nat × Nat) → Option Nat) :
    Batch × Option (List Nat × List (List Nat × Nat)) × (Nat → Nat) :=
  match b.take_group (fun ckey => (cid ckey, outSeq ckey)) with
  | (b', none) => (b', none, outSeq)
  | (b', some (addr, ids)) =>
    let sent := send_batched addr ids ser
    let outSeq' := b'.last_group_ckeys.foldl
      (fun f k => fun j => if j = k then f j + 1 else f j) outSeq
    (b', sent, outSeq')

/-! ## Bus intake: id registration (src/server.rs lines 1460-1485, 1535-1560) -/

/-- The live connection record as seen by the intake loop: its current
session id bytes. -/
structure ConnRec where
  id : List Nat
  deriving Repr, DecidableEq

/-- The acceptance chain applied to one payload id at src/server.rs lines
1461-1474: decode the slot key, require a live connection in that slot, and
require a byte-exact id match; returns the slot key on acceptance. -/
def id_accepted (conns : List (Option ConnRec)) (pid : List Nat) : Option Nat :=
  match get_key pid with
  | none => none
  | some key =>
    match conns.getD key none with
    | none => none
    | some c => if c.id = pid then some key else none

/-- The registration loop from src/server.rs lines 1460-1485: for each id in
the payload, run the acceptance chain; on acceptance insert a fresh fan-out
node (numbered by insertion order), record it in the connection's
resp_sending_key, and append it to the sending list. `sending` holds
(node, slot key) pairs; `rsk` is the resp_sending_key table. -/
def register_go (conns : List (Option ConnRec)) :
    List (List Nat) → List (Nat × Nat) → (Nat → Option Nat) → Nat →
    List (Nat × Nat) × (Nat → Option Nat)
  | [], sending, rsk, _ => (sending, rsk)
  | pid :: restIds, sending, rsk, nextNode =>
    match get_key pid with
    | none => register_go conns restIds sending rsk nextNode
    | some key =>
      match conns.getD key none with
      | none => register_go conns restIds sending rsk nextNode
      | some c =>
        if c.id = pid then
          register_go conns restIds (sending ++ [(nextNode, key)])
            (fun j => if j = key then some nextNode else rsk j) (nextNode + 1)
        else
          register_go conns restIds sending rsk nextNode

/-- Registration of a full payload starting from an empty sending list. -/
def register_ids (conns : List (Option ConnRec)) (ids : List (List Nat)) :
    List (Nat × Nat) × (Nat → Option Nat) :=
  register_go conns ids [] (fun _ => none) 0

/-! ## Stream-mode bus intake framing (src/server.rs lines 1500-1513) -/

/-- Outcome of the stream-mode framing checks on one inbound bus message. -/
inductive StreamIntake where
  | reject : StreamIntake
  | dropNotForUs : StreamIntake
  | proceed (addr : List Nat) (offset : Nat) : StreamIntake
  deriving Repr, DecidableEq

/-- The framing checks at src/server.rs lines 1500-1513: split the message
with get_addr_and_offset (failure logs a warning and skips the message),
drop it when the address part differs from the worker's instance_id,
otherwise continue parsing from the returned offset. -/
def stream_intake_classify (instance_id msg : List Nat) : StreamIntake :=
  match get_addr_and_offset msg with
  | none => .reject
  | some (addr, offset) =>
    if addr ≠ instance_id then .dropNotForUs else .proceed addr offset

/-- The pending slot after the framing checks run with no pending response:
rejected or dropped messages never become the pending response; an accepted
message is parsed from its offset (the parser is external, so it is an
oracle argument) and the parse result, if any, becomes pending. -/
def stream_intake_pending (instance_id msg : List Nat)
    (parse : Nat → Option Nat) : Option Nat :=
  match stream_intake_classify instance_id msg with
  | .reject => none
  | .dropNotForUs => none
  | .proceed _ offset => parse offset

/-! ## Per-mode fan-out subsystem (src/server.rs lines 1430-1637, 2034-2054)

One mode's bus-intake and fan-out machinery as a labelled transition system.
Messages are numbered; `pending` is the mode's pending response slot,
`sending`/`waiting` the fan-out node lists (holding target slot keys),
`inboxes` the capacity-1 per-connection inboxes (RESP_SENDER_BOUND = 1),
holding the number of the retained message clone. `canRead` mirrors the
can_zreq_read / can_zstream_in_read flag. `panicked` records that the
scratch-arena allocation unwrap failed: the scratch arena has
MSG_RETAINED_MAX slots, one per live parsed response, so parsing a new
message requires a free slot, and exhaustion aborts the worker. -/

structure FanoutState where
  pending : Option Nat
  sending : List Nat
  waiting : List Nat
  inboxes : List (Option Nat)
  canRead : Bool
  panicked : Bool
  deriving Repr, DecidableEq

namespace FanoutState

/-- The set of distinct parsed responses currently retained: the pending one
plus every clone sitting in a per-connection inbox. Clones of one message
share one arena slot, so retention counts distinct messages. -/
def retainedCount (s : FanoutState) : Nat :=
  (s.pending.toList ++ s.inboxes.filterMap id).toFinset.card

/-- The worker's initial per-mode state: nothing pending, no nodes, all
inboxes empty. -/
def init (n : Nat) : FanoutState :=
  { pending := none, sending := [], waiting := [],
    inboxes := List.replicate n none, canRead := true, panicked := false }

end FanoutState

/-- Transition labels for the per-mode fan-out subsystem. -/
inductive FanoutLabel where
  | busRead (msg : Nat) (targets : List Nat)
  | busBlock
  | busPanic (msg : Nat)
  | deliverOk (k : Nat)
  | deliverFull (k : Nat)
  | clearPending
  | rearm (k : Nat)
  | consume (k : Nat)
  deriving Repr, DecidableEq

/-- Small-step semantics of one mode's intake and fan-out, mirroring
src/server.rs: `busRead` is one pass of the intake loop (lines 1430-1488 /
1490-1563), guarded on the pending slot being empty, the handle being
readable and a free scratch-arena slot; `busPanic` is the same situation
with the arena exhausted, where the allocation unwrap aborts the worker
(lines 1440-1444); `busBlock` is the WouldBlock arm; `deliverOk` and
`deliverFull` are one step of the fan-out drain (lines 1565-1600);
`clearPending` clears the slot once both lists are empty (lines 1597-1599);
`rearm` is the subtoken-4 writable edge moving a node from waiting back to
sending (lines 2034-2054); `consume` is a connection draining its inbox in
Connection::process (line 559). -/
inductive FanoutStep : FanoutLabel → FanoutState → FanoutState → Prop
  | busRead (s : FanoutState) (msg : Nat) (targets : List Nat)
      (hp : s.panicked = false) (hpend : s.pending = none)
      (hread : s.canRead = true)
      (harena : s.retainedCount < MSG_RETAINED_MAX) :
      FanoutStep (.busRead msg targets) s
        { s with pending := some msg, sending := targets }
  | busPanic (s : FanoutState) (msg : Nat)
      (hp : s.panicked = false) (hpend : s.pending = none)
      (hread : s.canRead = true)
      (harena : s.retainedCount = MSG_RETAINED_MAX) :
      FanoutStep (.busPanic msg) s { s with panicked := true }
  | busBlock (s : FanoutState) (hp : s.panicked = false) :
      FanoutStep .busBlock s { s with canRead := false }
  | deliverOk (s : FanoutState) (msg k : Nat) (rest : List Nat)
      (hp : s.panicked = false) (hpend : s.pending = some msg)
      (hsend : s.sending = k :: rest) (hfree : s.inboxes.getD k none = none) :
      FanoutStep (.deliverOk k) s
        { s with sending := rest, inboxes := s.inboxes.set k (some msg) }
  | deliverFull (s : FanoutState) (msg k : Nat) (rest : List Nat)
      (hp : s.panicked = false) (hpend : s.pending = some msg)
      (hsend : s.sending = k :: rest)
      (hfull : s.inboxes.getD k none ≠ none) :
      FanoutStep (.deliverFull k) s
        { s with sending := rest, waiting := s.waiting ++ [k] }
  | clearPending (s : FanoutState) (msg : Nat)
      (hp : s.panicked = false) (hpend : s.pending = some msg)
      (hsend : s.sending = []) (hwait : s.waiting = []) :
      FanoutStep .clearPending s { s with pending := none }
  | rearm (s : FanoutState) (k : Nat)
      (hp : s.panicked = false) (hmem : k ∈ s.waiting) :
      FanoutStep (.rearm k) s
        { s with waiting := s.waiting.erase k, sending := s.sending ++ [k] }
  | consume (s : FanoutState) (k msg : Nat)
      (hp : s.panicked = false) (hbox : s.inboxes.getD k none = some msg) :
      FanoutStep (.consume k) s { s with inboxes := s.inboxes.set k none }

/-- Reachability of a per-mode fan-out state from the worker's initial state
with `n` connection slots. -/
def FanoutReachable (n : Nat) (s : FanoutState) : Prop :=
  Relation.ReflTransGen (fun a b => ∃ l, FanoutStep l a b) (FanoutState.init n) s

/-! ## Concrete scenario data (spec section 8, scenario 6) -/

/-- The id snapshot function of the batch-grouping scenario: connection k has
id "id-k" (bytes 105,100,45,48+k) and out_seq 0. -/
def scenarioIds : Nat → List Nat × Nat := fun k => ([105, 100, 45, 48 + k], 0)

/-- The batch after inserting (addr-a,1), (addr-a,2), (addr-b,3) into a
capacity-3 batch, with addr-a = [97], addr-b = [98]. -/
def scenarioBatch : Batch :=
  ((((Batch.new 3).add [97] 1).1.add [97] 2).1.add [98] 3).1

/-! ## Concrete emission data (keep-alive emission, src/server.rs 1770-1816) -/

/-- A one-entry batch holding connection 1 under address [97]. -/
def cexBatch : Batch :=
  { capacity := 1, addrs := [([97], [1])], addr_index := 0, last_group_ckeys := [] }

/-- cexBatch after its single group is taken. -/
def cexBatchAfter : Batch :=
  { capacity := 1, addrs := [([97], [])], addr_index := 0, last_group_ckeys := [1] }

/-- Connection ids for the emission scenario: connection k has the one-byte
id 48+k. -/
def cexCid : Nat → List Nat := fun k => [48 + k]

/-- All out_seq counters start at 0. -/
def cexSeq : Nat → Nat := fun _ => 0

/-- A serializer oracle that always fails (packet does not fit). -/
def cexSerFail : List (List Nat × Nat) → Option Nat := fun _ => none

/-- A serializer oracle that always succeeds. -/
def cexSerOk : List (List Nat × Nat) → Option Nat := fun _ => some 10

/-! # Theorems -/

/-- getD of a set at the written index. -/
theorem list_getD_set_eq {α : Type} (l : List α) (i : Nat) (x d : α)
    (h : i < l.length) : (l.set i x).getD i d = x := by
  rw [List.getD_eq_getElem?_getD, List.getElem?_set_eq_of_lt x h]
  rfl

/-- getD of a set at a different index. -/
theorem list_getD_set_ne {α : Type} (l : List α) {i j : Nat} (x d : α)
    (h : i ≠ j) : (l.set i x).getD j d = l.getD j d := by
  rw [List.getD_eq_getElem?_getD, List.getElem?_set_ne h,
    ← List.getD_eq_getElem?_getD]

/-- Draining a KeySet with enough fuel returns exactly its queue. -/
theorem keyset_drain_queue (n : Nat) :
    ∀ s : KeySet, s.queue.length ≤ n → KeySet.drain n s = s.queue := by
  induction n with
  | zero =>
    intro s h
    have : s.queue = [] := List.eq_nil_of_length_eq_zero (Nat.le_zero.mp h)
    simp [KeySet.drain, this]
  | succ n ih =>
    intro s h
    cases hq : s.queue with
    | nil => simp [KeySet.drain, KeySet.take, hq]
    | cons k rest =>
      have hlen : rest.length ≤ n := by
        have := h
        rw [hq] at this
        simpa using this
      simp only [KeySet.drain, KeySet.take, hq]
      exact congrArg (k :: ·) (ih _ hlen)

/-- C5: for every well-formed KeySet and key within capacity, add of a
present key is a no-op; add of an absent key appends it to the FIFO and
preserves well-formedness; take returns none exactly on the empty set;
take pops the FIFO head and preserves well-formedness; the queue has no
duplicates, and repeatedly calling take yields each queued key exactly
once in FIFO order of first insertion. -/
theorem keyset_add_take_fifo (s : KeySet) (h : s.Wf) (k : Nat)
    (hk : k < s.index.length) :
    (k ∈ s.queue → s.add k = s) ∧
    (k ∉ s.queue → (s.add k).queue = s.queue ++ [k] ∧ (s.add k).Wf) ∧
    (s.take = none ↔ s.queue = []) ∧
    (∀ k' s', s.take = some (k', s') → s.queue = k' :: s'.queue ∧ s'.Wf) ∧
    s.queue.Nodup ∧ KeySet.drain s.queue.length s = s.queue := by
  obtain ⟨hnd, hmem, hrange⟩ := h
  refine ⟨?_, ?_, ?_, ?_, hnd, keyset_drain_queue _ s le_rfl⟩
  · intro hin
    have hb : s.index.getD k false = true := (hmem k).mp hin
    unfold KeySet.add
    rw [if_pos hb]
  · intro hout
    have hidx : s.index.getD k false = false := by
      cases hb : s.index.getD k false with
      | false => rfl
      | true => exact absurd ((hmem k).mpr hb) hout
    have hadd : s.add k =
        ⟨s.index.set k true, s.queue ++ [k]⟩ := by
      unfold KeySet.add
      rw [if_neg (by rw [hidx]; exact Bool.false_ne_true)]
    rw [hadd]
    refine ⟨rfl, ?_, ?_, ?_⟩
    · simp [List.nodup_append, hnd, hout]
    · intro j
      by_cases hj : j = k
      · subst hj
        rw [list_getD_set_eq _ _ _ _ hk]
        simp
      · rw [list_getD_set_ne _ _ _ (fun hh => hj hh.symm)]
        simp only [List.mem_append, List.mem_singleton, hj, or_false]
        exact hmem j
    · intro j hj
      simp only [List.length_set]
      rcases List.mem_append.mp hj with hj' | hj'
      · exact hrange j hj'
      · simp only [List.mem_singleton] at hj'
        omega
  · cases hq : s.queue with
    | nil => simp [KeySet.take, hq]
    | cons a rest => simp [KeySet.take, hq]
  · intro k' s' htake
    cases hq : s.queue with
    | nil => rw [KeySet.take, hq] at htake; cases htake
    | cons a rest =>
      rw [KeySet.take, hq] at htake
      simp only [Option.some.injEq, Prod.mk.injEq] at htake
      obtain ⟨rfl, rfl⟩ := htake
      rw [hq] at hnd
      have harange : a < s.index.length :=
        hrange a (by rw [hq]; exact List.mem_cons_self _ _)
      have hanin : a ∉ rest := (List.nodup_cons.mp hnd).1
      refine ⟨rfl, (List.nodup_cons.mp hnd).2, ?_, ?_⟩
      · intro j
        by_cases hj : j = a
        · subst hj
          rw [list_getD_set_eq _ _ _ _ harange]
          simp [hanin]
        · rw [list_getD_set_ne _ _ _ (fun hh => hj hh.symm)]
          have hmj := hmem j
          rw [hq] at hmj
          simp only [List.mem_cons] at hmj
          constructor
          · intro hin
            exact hmj.mp (Or.inr hin)
          · intro hb
            rcases hmj.mpr hb with h' | h'
            · exact absurd h' hj
            · exact h'
      · intro j hj
        simp only [List.length_set]
        exact hrange j (by rw [hq]; exact List.mem_cons_of_mem _ hj)

/-- Witness for keyset_add_take_fifo at the concrete KeySet with capacity 3
whose queue holds key 1: adding the absent key 2 appends it, and draining
yields [1]. -/
theorem keyset_add_take_fifo_witness :
    ((⟨[false, true, false], [1]⟩ : KeySet).add 2).queue = [1, 2] ∧
    KeySet.drain 1 ⟨[false, true, false], [1]⟩ = [1] := by
  have hwf : (⟨[false, true, false], [1]⟩ : KeySet).Wf := by
    refine ⟨by decide, fun k => ?_, by decide⟩
    rcases k with _ | _ | _ | n <;> simp [List.getD]
  have h := keyset_add_take_fifo ⟨[false, true, false], [1]⟩ hwf 2 (by decide)
  refine ⟨(h.2.1 (by decide)).1, ?_⟩
  have := h.2.2.2.2.2
  simpa using this

/-- C4: the concrete batch-grouping scenario. Inserting (addr-a,1),
(addr-a,2), (addr-b,3) into a capacity-3 batch succeeds, a fourth
add(addr-c,4) fails, the first take_group yields addr-a with
[id-1 at seq 0, id-2 at seq 0] and last_group_ckeys [1,2], the second
yields addr-b with [id-3 at seq 0] and last_group_ckeys [3], and the
third yields none. -/
theorem batch_grouping_scenario :
    (((Batch.new 3).add [97] 1).2.isSome ∧
     (((Batch.new 3).add [97] 1).1.add [97] 2).2.isSome ∧
     ((((Batch.new 3).add [97] 1).1.add [97] 2).1.add [98] 3).2.isSome ∧
     (scenarioBatch.add [99] 4).2 = none) ∧
    ((scenarioBatch.add [99] 4).1.take_group scenarioIds).2 =
      some ([97], [([105, 100, 45, 49], 0), ([105, 100, 45, 50], 0)]) ∧
    ((scenarioBatch.add [99] 4).1.take_group scenarioIds).1.last_group_ckeys
      = [1, 2] ∧
    ((((scenarioBatch.add [99] 4).1.take_group scenarioIds).1.take_group
        scenarioIds).2 = some ([98], [([105, 100, 45, 51], 0)]) ∧
     (((scenarioBatch.add [99] 4).1.take_group scenarioIds).1.take_group
        scenarioIds).1.last_group_ckeys = [3]) ∧
    ((((scenarioBatch.add [99] 4).1.take_group scenarioIds).1.take_group
        scenarioIds).1.take_group scenarioIds).2 = none := by
  decide

/-- countLeadingEmpty never exceeds the list length. -/
theorem countLeadingEmpty_le (l : List (List Nat × List Nat)) :
    Batch.countLeadingEmpty l ≤ l.length := by
  induction l with
  | nil => simp [Batch.countLeadingEmpty]
  | cons a rest ih =>
    simp only [Batch.countLeadingEmpty, List.length_cons]
    split
    · omega
    · omega

/-- skipIndex satisfies the recursion of the Rust while loop: step past the
current entry exactly when it exists and its queue is empty. -/
theorem skipIndex_eq (addrs : List (List Nat × List Nat)) (i : Nat) :
    Batch.skipIndex addrs i =
      if i < addrs.length ∧ ((addrs.getD i ([], [])).2).isEmpty then
        Batch.skipIndex addrs (i + 1)
      else i := by
  by_cases hlt : i < addrs.length
  · have hdrop : addrs.drop i = addrs.getD i ([], []) :: addrs.drop (i + 1) := by
      rw [List.getD_eq_getElem?_getD, List.getElem?_eq_getElem hlt]
      exact List.drop_eq_getElem_cons hlt
    by_cases hemp : ((addrs.getD i ([], [])).2).isEmpty
    · rw [if_pos ⟨hlt, hemp⟩]
      unfold Batch.skipIndex
      rw [hdrop]
      simp only [Batch.countLeadingEmpty, hemp, if_pos]
      omega
    · rw [if_neg (by intro hc; exact hemp hc.2)]
      unfold Batch.skipIndex
      rw [hdrop]
      simp only [Batch.countLeadingEmpty, hemp, if_neg]
      simp [hemp]
  · rw [if_neg (by intro hc; exact hlt hc.1)]
    unfold Batch.skipIndex
    rw [List.drop_eq_nil_of_le (by omega)]
    simp [Batch.countLeadingEmpty]

/-- Unfolding of Batch.take_group in the group-producing branch. -/
theorem take_group_some_char (b : Batch) (f : Nat → List Nat × Nat)
    (b' : Batch) (addr : List Nat) (ids : List (List Nat × Nat))
    (h : b.take_group f = (b', some (addr, ids))) :
    ∃ i, i < b.addrs.length ∧
      addr = (b.addrs.getD i ([], [])).1 ∧
      b'.last_group_ckeys = (b.addrs.getD i ([], [])).2.take IDS_MAX ∧
      ids = b'.last_group_ckeys.map f ∧
      b'.addrs = b.addrs.set i
        ((b.addrs.getD i ([], [])).1, (b.addrs.getD i ([], [])).2.drop IDS_MAX) ∧
      b'.addr_index = i ∧ b'.capacity = b.capacity := by
  unfold Batch.take_group at h
  by_cases hlt : Batch.skipIndex b.addrs b.addr_index < b.addrs.length
  · rw [if_pos hlt] at h
    simp only [Prod.mk.injEq, Option.some.injEq] at h
    obtain ⟨hb', haddr, hids⟩ := h
    refine ⟨Batch.skipIndex b.addrs b.addr_index, hlt, haddr.symm, ?_, ?_, ?_, ?_, ?_⟩
    · rw [← hb']
    · rw [← hb', ← hids]
    · rw [← hb']
    · rw [← hb']
    · rw [← hb']
  · rw [if_neg hlt] at h
    exact Option.noConfusion (congrArg Prod.snd h)

/-- Unfolding of Batch.take_group in the exhausted branch: the batch
self-clears. -/
theorem take_group_none_char (b : Batch) (f : Nat → List Nat × Nat)
    (b' : Batch) (h : b.take_group f = (b', none)) :
    b'.addrs = [] ∧ b'.addr_index = 0 ∧ b'.is_empty = true ∧
      b'.capacity = b.capacity := by
  unfold Batch.take_group at h
  by_cases hlt : Batch.skipIndex b.addrs b.addr_index < b.addrs.length
  · rw [if_pos hlt] at h
    exact Option.noConfusion (congrArg Prod.snd h)
  · rw [if_neg hlt] at h
    have hb' : b' = b.clear := (congrArg Prod.fst h).symm
    subst hb'
    refine ⟨rfl, rfl, ?_, rfl⟩
    simp [Batch.is_empty, Batch.len, Batch.clear]

/-- C3: in every Batch state and for every id snapshot function, a produced
group carries at most IDS_MAX ids, all drawn from the FIFO of one single
backend address (the one returned with the group); when the cursor has
walked past the last address with queued entries, take_group self-clears
the batch (empty address table, cursor reset, empty) and returns none. -/
theorem batch_take_group_spec (b : Batch) (f : Nat → List Nat × Nat) :
    (∀ b' addr ids, b.take_group f = (b', some (addr, ids)) →
      ids.length ≤ IDS_MAX ∧
      ∃ i, i < b.addrs.length ∧ addr = (b.addrs.getD i ([], [])).1 ∧
        b'.last_group_ckeys = (b.addrs.getD i ([], [])).2.take IDS_MAX ∧
        ids = b'.last_group_ckeys.map f) ∧
    (∀ b', b.take_group f = (b', none) →
      b'.addrs = [] ∧ b'.addr_index = 0 ∧ b'.is_empty = true) := by
  constructor
  · intro b' addr ids h
    obtain ⟨i, hi, haddr, hck, hids, _, _, _⟩ := take_group_some_char b f b' addr ids h
    constructor
    · rw [hids, List.length_map, hck]
      exact le_trans (List.length_take_le _ _) le_rfl
    · exact ⟨i, hi, haddr, hck, hids⟩
  · intro b' h
    obtain ⟨h1, h2, h3, _⟩ := take_group_none_char b f b' h
    exact ⟨h1, h2, h3⟩

/-- Witness for batch_take_group_spec: on the concrete scenario batch the
produced group obeys the bound and address-sharing facts, and on an
exhausted batch take_group returns none with the batch cleared. -/
theorem batch_take_group_spec_witness :
    (((scenarioBatch.take_group scenarioIds).2 =
        some ([97], [([105, 100, 45, 49], 0), ([105, 100, 45, 50], 0)])) ∧
      [([105, 100, 45, 49], 0), ([105, 100, 45, 50], 0)].length ≤ IDS_MAX) ∧
    ((Batch.new 3).take_group scenarioIds).2 = none ∧
    ((Batch.new 3).take_group scenarioIds).1.is_empty = true := by
  have h1 := (batch_take_group_spec scenarioBatch scenarioIds).1
    (scenarioBatch.take_group scenarioIds).1 [97]
    [([105, 100, 45, 49], 0), ([105, 100, 45, 50], 0)] (by decide)
  have h2 := (batch_take_group_spec (Batch.new 3) scenarioIds).2
    ((Batch.new 3).take_group scenarioIds).1 (by decide)
  exact ⟨⟨by decide, h1.1⟩, by decide, h2.2.2⟩

/-- The address-position scan of Batch::add never answers past the table
length. -/
theorem findPos_le (addrs : List (List Nat × List Nat)) (a : List Nat) :
    Batch.findPos addrs a ≤ addrs.length := by
  unfold Batch.findPos
  have haux : ∀ (l : List (Nat × (List Nat × List Nat))) (acc n : Nat),
      acc ≤ n → (∀ x ∈ l, x.1 < n) →
      l.foldl (fun pos x => if x.2.1 = a then x.1 else pos) acc ≤ n := by
    intro l
    induction l with
    | nil => intro acc n hacc _; simpa using hacc
    | cons x rest ih =>
      intro acc n hacc hall
      simp only [List.foldl_cons]
      refine ih _ n ?_ (fun y hy => hall y (List.mem_cons_of_mem _ hy))
      split
      · exact le_of_lt (hall x (List.mem_cons_self _ _))
      · exact hacc
  exact haux _ _ _ le_rfl (fun x hx => List.fst_lt_of_mem_enum hx)

/-- Appending to the queue at a valid position grows the total queued length
by one. -/
theorem pushAt_sum (l : List (List Nat × List Nat)) :
    ∀ (pos k : Nat), pos < l.length →
      ((Batch.pushAt l pos k).map (fun a => a.2.length)).sum =
        (l.map (fun a => a.2.length)).sum + 1 := by
  induction l with
  | nil => intro pos k h; cases h
  | cons x rest ih =>
    intro pos k h
    cases pos with
    | zero =>
      simp [Batch.pushAt]
      omega
    | succ p =>
      have hp : p < rest.length := by simpa using h
      have hrec := ih p k hp
      have hget : rest.get? p ≠ none := by
        rw [List.get?_eq_getElem?, List.getElem?_eq_getElem hp]
        simp
      simp only [Batch.pushAt, List.get?_cons_succ, List.set_cons_succ] at *
      cases hg : rest.get? p with
      | none => exact absurd hg hget
      | some aq =>
        obtain ⟨a2, q2⟩ := aq
        rw [hg] at hrec
        simp only [List.map_cons, List.sum_cons] at hrec ⊢
        omega

/-- Batch::add leaves the capacity unchanged. -/
theorem batch_add_capacity (b : Batch) (a : List Nat) (k : Nat) :
    (b.add a k).1.capacity = b.capacity := by
  unfold Batch.add
  split <;> rfl

/-- Batch::add on a non-full batch succeeds and grows the occupancy by
one. -/
theorem batch_add_success (b : Batch) (a : List Nat) (k : Nat)
    (h : b.len < b.capacity) :
    (b.add a k).2.isSome ∧ (b.add a k).1.len = b.len + 1 := by
  unfold Batch.add
  rw [if_neg (by omega)]
  refine ⟨rfl, ?_⟩
  simp only [Batch.len]
  set pos := Batch.findPos b.addrs a with hpos
  by_cases hp : pos = b.addrs.length
  · rw [if_pos hp]
    have hlt : pos < (b.addrs ++ [(a, [])]).length := by
      simp [hp]
    rw [pushAt_sum _ _ _ hlt]
    simp [Batch.len]
  · rw [if_neg hp]
    have hle := findPos_le b.addrs a
    have hlt : pos < b.addrs.length := by omega
    rw [pushAt_sum _ _ _ hlt]

/-- Batch::add on a full batch reports Err (after possibly extending the
address table). -/
theorem batch_add_full (b : Batch) (a : List Nat) (k : Nat)
    (h : b.len = b.capacity) : (b.add a k).2 = none := by
  unfold Batch.add
  rw [if_pos h]

/-- The keep-alive scan cannot exhaust the batch while the remaining
iteration budget fits in the remaining capacity. -/
theorem keep_alive_scan_isSome (conns : List (Option ConnSlot)) :
    ∀ (fuel idx : Nat) (wrapped : Bool) (b : Batch),
      fuel + b.len ≤ b.capacity →
      (keep_alive_scan conns fuel idx wrapped b).isSome := by
  intro fuel
  induction fuel with
  | zero => intro idx wrapped b _; simp [keep_alive_scan]
  | succ fuel ih =>
    intro idx wrapped b hcap
    simp only [keep_alive_scan]
    split
    · simp
    · cases hc : conns.getD idx none with
      | none =>
        simp only [Option.isSome_map']
        exact ih _ _ b (by omega)
      | some c =>
        cases hs : c.isStream with
        | false =>
          simp only [hs, Bool.false_eq_true, if_false, Option.isSome_map']
          exact ih _ _ b (by omega)
        | true =>
          simp only [hs, if_true]
          cases hta : c.to_addr with
          | none =>
            simp only [Option.isSome_map']
            exact ih _ _ b (by omega)
          | some addr =>
            have hlen : b.len < b.capacity := by omega
            obtain ⟨hsome, hgrow⟩ := batch_add_success b addr idx hlen
            have hcapeq := batch_add_capacity b addr idx
            rcases hadd : b.add addr idx with ⟨b', r⟩
            rw [hadd] at hsome hgrow hcapeq
            simp only at hsome hgrow hcapeq
            cases r with
            | none => simp at hsome
            | some bk =>
              simp only [hadd, Option.isSome_map']
              exact ih _ _ b' (by omega)

/-- C10: starting from an empty batch, the keep-alive scan loop performs at
most batch.capacity() iterations, each inserting at most one entry, so the
batch.add(addr, key).unwrap() inside it can never hit the Err branch. -/
theorem keep_alive_scan_add_never_fails (conns : List (Option ConnSlot))
    (b : Batch) (idx : Nat) (h : b.is_empty = true) :
    (keep_alive_scan conns b.capacity idx false b).isSome := by
  have hlen : b.len = 0 := by
    simpa [Batch.is_empty] using h
  exact keep_alive_scan_isSome conns b.capacity idx false b (by omega)

/-- Witness for keep_alive_scan_add_never_fails on a concrete full slot
table: two stream connections with known addresses, batch capacity 2. -/
theorem keep_alive_scan_add_never_fails_witness :
    (keep_alive_scan [some ⟨true, some [97]⟩, some ⟨true, some [98]⟩]
      (Batch.new 2).capacity 0 false (Batch.new 2)).isSome := by
  exact keep_alive_scan_add_never_fails _ (Batch.new 2) 0 (by decide)

/-- A scan that starts wrapped stops immediately. -/
theorem keep_alive_scan_wrapped (conns : List (Option ConnSlot)) :
    ∀ (fuel idx : Nat) (b : Batch),
      keep_alive_scan conns fuel idx true b = some (b, idx, []) := by
  intro fuel idx b
  cases fuel with
  | zero => rfl
  | succ fuel => simp [keep_alive_scan]

/-- The examined keys of a non-wrapped scan form a window of consecutive
slot keys starting at the scan index, of size at most the fuel. -/
theorem keep_alive_scan_range (conns : List (Option ConnSlot)) :
    ∀ (fuel idx : Nat) (b : Batch) (r : Batch × Nat × List Nat),
      keep_alive_scan conns fuel idx false b = some r →
      ∃ k, k ≤ fuel ∧ r.2.2 = List.range' idx k := by
  intro fuel
  induction fuel with
  | zero =>
    intro idx b r h
    simp only [keep_alive_scan, Option.some.injEq] at h
    exact ⟨0, Nat.le_refl 0, by rw [← h]; rfl⟩
  | succ fuel ih =>
    intro idx b r h
    have hcont : ∀ (b2 : Batch),
        (keep_alive_scan conns fuel (scanNext conns.length idx false).1
            (scanNext conns.length idx false).2 b2).map
          (fun r => (r.1, r.2.1, idx :: r.2.2)) = some r →
        ∃ k, k ≤ fuel + 1 ∧ r.2.2 = List.range' idx k := by
      intro b2 hm
      by_cases hw : idx + 1 = conns.length
      · rw [scanNext, if_pos hw] at hm
        rw [keep_alive_scan_wrapped] at hm
        simp only [Option.map_some', Option.some.injEq] at hm
        refine ⟨1, by omega, ?_⟩
        rw [← hm]
        rfl
      · rw [scanNext, if_neg hw] at hm
        rcases Option.map_eq_some'.mp hm with ⟨r', hr', hfr⟩
        obtain ⟨k, hk, hrange⟩ := ih (idx + 1) b2 r' hr'
        refine ⟨k + 1, by omega, ?_⟩
        rw [← hfr]
        simp only [List.range'_succ]
        rw [← hrange]
    rw [keep_alive_scan] at h
    rw [if_neg (by simp)] at h
    cases hc : conns.getD idx none with
    | none =>
      simp only [hc] at h
      exact hcont b h
    | some c =>
      simp only [hc] at h
      cases hs : c.isStream with
      | false =>
        simp only [hs, Bool.false_eq_true, if_false] at h
        exact hcont b h
      | true =>
        simp only [hs, if_true] at h
        cases hta : c.to_addr with
        | none =>
          simp only [hta] at h
          exact hcont b h
        | some addr =>
          simp only [hta] at h
          rcases hadd : b.add addr idx with ⟨b', ro⟩
          simp only [hadd] at h
          cases ro with
          | none => simp at h
          | some bk => exact hcont b' h

/-- C9: ka_batch is the ceiling of stream_maxconn / 450 where
450 = KEEP_ALIVE_TIMEOUT_MS / KEEP_ALIVE_BATCH_MS; the keep-alive phase
leaves everything untouched unless the batch is empty and the interval has
elapsed; and a scan over a capacity-ka_batch batch examines at most
ka_batch consecutive connection slots starting from
next_keep_alive_index. -/
theorem keep_alive_pacing (n : Nat) :
    (KEEP_ALIVE_BATCHES = 450 ∧
     n ≤ KEEP_ALIVE_BATCHES * ka_batch n ∧
     ∀ m, n ≤ KEEP_ALIVE_BATCHES * m → ka_batch n ≤ m) ∧
    (∀ (conns : List (Option ConnSlot)) (b : Batch) (now nka idx : Nat),
        ¬(b.is_empty = true ∧ nka ≤ now) →
        keep_alive_phase conns b now nka idx = some (b, idx, nka, [])) ∧
    (∀ (conns : List (Option ConnSlot)) (b : Batch) (now nka idx : Nat)
        (r : Batch × Nat × Nat × List Nat),
        b.capacity = ka_batch n →
        keep_alive_phase conns b now nka idx = some r →
        ∃ k, k ≤ ka_batch n ∧ r.2.2.2 = List.range' idx k) := by
  refine ⟨⟨by decide, ?_, ?_⟩, ?_, ?_⟩
  · have hdm := Nat.div_add_mod (n + 449) 450
    have hlt : (n + 449) % 450 < 450 := Nat.mod_lt _ (by norm_num)
    show n ≤ 450 * ((n + (450 - 1)) / 450)
    omega
  · intro m hm
    have hdm := Nat.div_add_mod (n + 449) 450
    have hlt : (n + 449) % 450 < 450 := Nat.mod_lt _ (by norm_num)
    show (n + (450 - 1)) / 450 ≤ m
    have hm' : n ≤ 450 * m := hm
    omega
  · intro conns b now nka idx hguard
    rw [keep_alive_phase, if_neg hguard]
  · intro conns b now nka idx r hcap hphase
    rw [keep_alive_phase] at hphase
    by_cases hguard : b.is_empty = true ∧ nka ≤ now
    · rw [if_pos hguard] at hphase
      rcases Option.map_eq_some'.mp hphase with ⟨r', hr', hfr⟩
      rw [hcap] at hr'
      obtain ⟨k, hk, hrange⟩ := keep_alive_scan_range conns (ka_batch n) idx b r' hr'
      exact ⟨k, hk, by rw [← hfr]; exact hrange⟩
    · rw [if_neg hguard] at hphase
      simp only [Option.some.injEq] at hphase
      exact ⟨0, Nat.zero_le _, by rw [← hphase]; rfl⟩

/-- Witness for keep_alive_pacing at stream_maxconn = 1000: the batch size
is 3 = ceil(1000/450), a phase on an empty capacity-3 batch with an elapsed
interval examines the three slots starting at index 0, and a phase whose
interval has not elapsed changes nothing. -/
theorem keep_alive_pacing_witness :
    (1000 ≤ KEEP_ALIVE_BATCHES * ka_batch 1000 ∧ ka_batch 1000 = 3) ∧
    (∃ k, k ≤ ka_batch 1000 ∧ ([0, 1, 2] : List Nat) = List.range' 0 k) ∧
    keep_alive_phase [] (Batch.new 3) 50 100 0 = some (Batch.new 3, 0, 100, []) := by
  refine ⟨⟨(keep_alive_pacing 1000).1.2.1, by decide⟩, ?_, ?_⟩
  · have h := (keep_alive_pacing 1000).2.2 [] (Batch.new (ka_batch 1000)) 100 100 0
      (Batch.new 3, 3, 200, [0, 1, 2]) rfl (by decide)
    simpa using h
  · exact (keep_alive_pacing 1000).2.1 [] (Batch.new 3) 50 100 0 (by decide)

/-- Folding the out_seq increment over a duplicate-free key list bumps
exactly the listed keys by one. -/
theorem foldl_inc_out_seq (l : List Nat) :
    ∀ (f : Nat → Nat), l.Nodup → ∀ k,
      (l.foldl (fun g k' => fun j => if j = k' then g j + 1 else g j) f) k =
        if k ∈ l then f k + 1 else f k := by
  induction l with
  | nil => intro f _ k; simp
  | cons a rest ih =>
    intro f hnd k
    have hrest : rest.Nodup := (List.nodup_cons.mp hnd).2
    have hanin : a ∉ rest := (List.nodup_cons.mp hnd).1
    simp only [List.foldl_cons]
    rw [ih _ hrest k]
    by_cases hk : k = a
    · subst hk
      simp [hanin]
    · simp only [if_neg hk, List.mem_cons, hk, false_or]
      split <;> rfl

/-- C2 (amended): in one emission turn the seq value carried for every
connection in the group equals that connection's out_seq immediately before
emission, and after the turn out_seq is incremented exactly once for every
connection of the group and left unchanged for all others - regardless of
whether serialization succeeded, since the increment loop runs
unconditionally after send_batched returns. -/
theorem emit_step_out_seq (b : Batch) (cid : Nat → List Nat)
    (outSeq : Nat → Nat) (ser : List (List Nat × Nat) → Option Nat)
    (b' : Batch) (addr : List Nat) (ids : List (List Nat × Nat))
    (h : b.take_group (fun k => (cid k, outSeq k)) = (b', some (addr, ids)))
    (hnd : b'.last_group_ckeys.Nodup) :
    ids = b'.last_group_ckeys.map (fun k => (cid k, outSeq k)) ∧
    (emit_step b cid outSeq ser).1 = b' ∧
    (emit_step b cid outSeq ser).2.1 = send_batched addr ids ser ∧
    (∀ k ∈ b'.last_group_ckeys,
      (emit_step b cid outSeq ser).2.2 k = outSeq k + 1) ∧
    (∀ k, k ∉ b'.last_group_ckeys →
      (emit_step b cid outSeq ser).2.2 k = outSeq k) := by
  obtain ⟨i, _, _, _, hids, _, _, _⟩ :=
    take_group_some_char b (fun k => (cid k, outSeq k)) b' addr ids h
  have hemit : emit_step b cid outSeq ser =
      (b', send_batched addr ids ser,
        b'.last_group_ckeys.foldl
          (fun f k => fun j => if j = k then f j + 1 else f j) outSeq) := by
    unfold emit_step
    rw [h]
  refine ⟨hids, by rw [hemit], by rw [hemit], ?_, ?_⟩
  · intro k hk
    rw [hemit]
    simp only
    rw [foldl_inc_out_seq _ _ hnd k, if_pos hk]
  · intro k hk
    rw [hemit]
    simp only
    rw [foldl_inc_out_seq _ _ hnd k, if_neg hk]

/-- Witness for emit_step_out_seq on the one-connection batch with a
succeeding serializer: the packet carries seq 0 for connection 1 and the
counter moves to 1; counter 2, outside the group, is untouched. -/
theorem emit_step_out_seq_witness :
    [([49], 0)] = cexBatchAfter.last_group_ckeys.map (fun k => (cexCid k, cexSeq k)) ∧
    (emit_step cexBatch cexCid cexSeq cexSerOk).2.2 1 = cexSeq 1 + 1 ∧
    (emit_step cexBatch cexCid cexSeq cexSerOk).2.2 2 = cexSeq 2 := by
  have h := emit_step_out_seq cexBatch cexCid cexSeq cexSerOk
    cexBatchAfter [97] [([49], 0)] (by decide) (by decide)
  exact ⟨h.1, h.2.2.2.1 1 (by decide), h.2.2.2.2 2 (by decide)⟩

/-- Counterexample to C2 as stated: with a serializer that fails, nothing is
sent for the taken group, yet out_seq for connection 1 is still incremented
from 0 to 1. The code increments out_seq for every connection in
last_group_ckeys after send_batched returns, even when send_batched
serialized nothing. -/
theorem emit_step_increments_on_failed_serialization :
    (emit_step cexBatch cexCid cexSeq cexSerFail).2.1 = none ∧
    (emit_step cexBatch cexCid cexSeq cexSerFail).2.2 1 = cexSeq 1 + 1 := by
  decide

/-- Two distinct payload ids can never be accepted for the same slot:
acceptance requires a byte-exact match with the slot's connection id. -/
theorem id_accepted_inj (conns : List (Option ConnRec)) (p1 p2 : List Nat)
    (k : Nat) (h1 : id_accepted conns p1 = some k)
    (h2 : id_accepted conns p2 = some k) : p1 = p2 := by
  cases hg1 : get_key p1 with
  | none => simp [id_accepted, hg1, -List.getD_eq_getElem?_getD] at h1
  | some k1 =>
    cases hc1 : conns.getD k1 none with
    | none => simp [id_accepted, hg1, hc1, -List.getD_eq_getElem?_getD] at h1
    | some c1 =>
      by_cases he1 : c1.id = p1
      · cases hg2 : get_key p2 with
        | none => simp [id_accepted, hg2, -List.getD_eq_getElem?_getD] at h2
        | some k2 =>
          cases hc2 : conns.getD k2 none with
          | none => simp [id_accepted, hg2, hc2, -List.getD_eq_getElem?_getD] at h2
          | some c2 =>
            by_cases he2 : c2.id = p2
            · have e1 : k1 = k := by
                simpa [id_accepted, hg1, hc1, he1, -List.getD_eq_getElem?_getD] using h1
              have e2 : k2 = k := by
                simpa [id_accepted, hg2, hc2, he2, -List.getD_eq_getElem?_getD] using h2
              subst e1
              subst e2
              have hc : some c1 = some c2 := hc1.symm.trans hc2
              injection hc with hcc
              rw [← he1, ← he2, hcc]
            · simp [id_accepted, hg2, hc2, he2, -List.getD_eq_getElem?_getD] at h2
      · simp [id_accepted, hg1, hc1, he1, -List.getD_eq_getElem?_getD] at h1

/-- Characterization of the registration loop under an arbitrary
well-formed accumulator. -/
theorem register_go_char (conns : List (Option ConnRec)) :
    ∀ (ids : List (List Nat)) (sending : List (Nat × Nat))
      (rsk : Nat → Option Nat) (next : Nat),
      ids.Nodup →
      (∀ k, k ∈ sending.map Prod.snd →
        ∀ pid ∈ ids, id_accepted conns pid ≠ some k) →
      (sending.map Prod.snd).Nodup →
      (∀ n k, (n, k) ∈ sending → rsk k = some n) →
      (∀ k, (rsk k).isSome ↔ k ∈ sending.map Prod.snd) →
      ((register_go conns ids sending rsk next).1.map Prod.snd =
          sending.map Prod.snd ++ ids.filterMap (id_accepted conns)) ∧
      ((register_go conns ids sending rsk next).1.map Prod.snd).Nodup ∧
      (∀ n k, (n, k) ∈ (register_go conns ids sending rsk next).1 →
          (register_go conns ids sending rsk next).2 k = some n) ∧
      (∀ k, ((register_go conns ids sending rsk next).2 k).isSome ↔
          k ∈ sending.map Prod.snd ++ ids.filterMap (id_accepted conns)) := by
  intro ids
  induction ids with
  | nil =>
    intro sending rsk next _ _ hsnd hpair hiff
    have hre : register_go conns [] sending rsk next = (sending, rsk) := rfl
    rw [hre, List.filterMap_nil]
    simp only [List.append_nil]
    exact ⟨trivial, hsnd, hpair, hiff⟩
  | cons pid rest ih =>
    intro sending rsk next hnd hdisj hsnd hpair hiff
    have hndr : rest.Nodup := (List.nodup_cons.mp hnd).2
    have hpidnin : pid ∉ rest := (List.nodup_cons.mp hnd).1
    have hcommon :
        register_go conns (pid :: rest) sending rsk next =
          register_go conns rest sending rsk next →
        id_accepted conns pid = none →
        ((register_go conns (pid :: rest) sending rsk next).1.map Prod.snd =
            sending.map Prod.snd ++
              (pid :: rest).filterMap (id_accepted conns)) ∧
        ((register_go conns (pid :: rest) sending rsk next).1.map
            Prod.snd).Nodup ∧
        (∀ n k, (n, k) ∈ (register_go conns (pid :: rest) sending rsk next).1 →
            (register_go conns (pid :: rest) sending rsk next).2 k = some n) ∧
        (∀ k,
          ((register_go conns (pid :: rest) sending rsk next).2 k).isSome ↔
            k ∈ sending.map Prod.snd ++
              (pid :: rest).filterMap (id_accepted conns)) := by
      intro hskip hacc
      rw [hskip, List.filterMap_cons_none hacc]
      exact ih sending rsk next hndr
        (fun k hk pid' hp' => hdisj k hk pid' (List.mem_cons_of_mem _ hp'))
        hsnd hpair hiff
    rcases hg : get_key pid with _ | key
    · exact hcommon (by simp only [register_go, hg]) (by simp [id_accepted, hg])
    · rcases hc : conns.getD key none with _ | c
      · refine hcommon ?_ ?_
        · simp only [register_go, hg, hc]
        · simp [id_accepted, hg, hc, -List.getD_eq_getElem?_getD]
      · by_cases he : c.id = pid
        swap
        · refine hcommon ?_ ?_
          · simp only [register_go, hg, hc]
            rw [if_neg he]
          · simp [id_accepted, hg, hc, he, -List.getD_eq_getElem?_getD]
        have hacc : id_accepted conns pid = some key := by
          simp [id_accepted, hg, hc, he, -List.getD_eq_getElem?_getD]
        have hfm : (pid :: rest).filterMap (id_accepted conns) =
            key :: rest.filterMap (id_accepted conns) :=
          List.filterMap_cons_some hacc
        have hstep : register_go conns (pid :: rest) sending rsk next =
            register_go conns rest (sending ++ [(next, key)])
              (fun j => if j = key then some next else rsk j) (next + 1) := by
          simp only [register_go, hg, hc]
          rw [if_pos he]
        have hkeynew : key ∉ sending.map Prod.snd := by
          intro hk
          exact hdisj key hk pid (List.mem_cons_self _ _) hacc
        have hdisj' : ∀ k, k ∈ (sending ++ [(next, key)]).map Prod.snd →
            ∀ pid' ∈ rest, id_accepted conns pid' ≠ some k := by
          intro k hk pid' hp' hacc'
          rw [List.map_append] at hk
          rcases List.mem_append.mp hk with hk' | hk'
          · exact hdisj k hk' pid' (List.mem_cons_of_mem _ hp') hacc'
          · simp only [List.map_cons, List.map_nil, List.mem_singleton] at hk'
            rw [hk'] at hacc'
            have hpp : pid' = pid := id_accepted_inj conns pid' pid key hacc' hacc
            subst hpp
            exact hpidnin hp'
        have hsnd' : ((sending ++ [(next, key)]).map Prod.snd).Nodup := by
          rw [List.map_append]
          simp only [List.map_cons, List.map_nil]
          simp [List.nodup_append, hsnd, hkeynew]
        have hpair' : ∀ n k, (n, k) ∈ sending ++ [(next, key)] →
            (fun j => if j = key then some next else rsk j) k = some n := by
          intro n k hk
          rcases List.mem_append.mp hk with hk' | hk'
          · have hkne : k ≠ key := by
              intro he
              subst he
              exact hkeynew (List.mem_map.mpr ⟨(n, k), hk', rfl⟩)
            simp only [if_neg hkne]
            exact hpair n k hk'
          · simp only [List.mem_singleton] at hk'
            injection hk' with h1 h2
            subst h1
            subst h2
            simp
        have hiff' : ∀ k,
            ((fun j => if j = key then some next else rsk j) k).isSome ↔
              k ∈ (sending ++ [(next, key)]).map Prod.snd := by
          intro k
          rw [List.map_append]
          simp only [List.map_cons, List.map_nil]
          by_cases hk : k = key
          · subst hk
            simp
          · simp only [if_neg hk, List.mem_append, List.mem_singleton, hk,
              or_false]
            exact hiff k
        obtain ⟨h1, h2, h3, h4⟩ := ih (sending ++ [(next, key)])
          (fun j => if j = key then some next else rsk j) (next + 1)
          hndr hdisj' hsnd' hpair' hiff'
        rw [hstep, hfm]
        refine ⟨?_, h2, h3, ?_⟩
        · rw [h1, List.map_append]
          simp [List.append_assoc]
        · intro k
          rw [h4 k, List.map_append]
          simp [List.append_assoc]

/-- C7: for every id in a received response payload, the id is skipped
(contributing neither a fan-out node nor a resp_sending_key entry) when its
slot-key parse fails, when the decoded slot holds no live connection, or
when the live connection's id is not byte-for-byte equal to the payload id;
every other id reserves exactly one fan-out node and records it in the
connection's resp_sending_key. -/
theorem bus_intake_skip_and_reserve (conns : List (Option ConnRec))
    (ids : List (List Nat)) (hnd : ids.Nodup) :
    (∀ pid, get_key pid = none → id_accepted conns pid = none) ∧
    (∀ pid key, get_key pid = some key → conns.getD key none = none →
        id_accepted conns pid = none) ∧
    (∀ pid key c, get_key pid = some key → conns.getD key none = some c →
        c.id ≠ pid → id_accepted conns pid = none) ∧
    ((register_ids conns ids).1.map Prod.snd =
        ids.filterMap (id_accepted conns)) ∧
    ((register_ids conns ids).1.map Prod.snd).Nodup ∧
    (∀ n k, (n, k) ∈ (register_ids conns ids).1 →
        (register_ids conns ids).2 k = some n) ∧
    (∀ k, ((register_ids conns ids).2 k).isSome ↔
        k ∈ ids.filterMap (id_accepted conns)) := by
  have hchar := register_go_char conns ids [] (fun _ => none) 0 hnd
    (by intro k hk; simp at hk) (by simp) (by intro n k hk; simp at hk)
    (by intro k; simp)
  simp only [List.map_nil, List.nil_append] at hchar
  obtain ⟨h1, h2, h3, h4⟩ := hchar
  refine ⟨?_, ?_, ?_, h1, h2, h3, h4⟩
  · intro pid hg
    simp [id_accepted, hg]
  · intro pid key hg hc
    simp [id_accepted, hg, hc, -List.getD_eq_getElem?_getD]
  · intro pid key c hg hc hne
    simp [id_accepted, hg, hc, hne, -List.getD_eq_getElem?_getD]

/-- Witness for bus_intake_skip_and_reserve: slot 0 holds a connection with
id 0-0-a; the payload lists that id plus an unparseable id [49]; exactly one
node is reserved, for slot 0, and recorded in resp_sending_key. -/
theorem bus_intake_skip_and_reserve_witness :
    (register_ids [some ⟨[48, 45, 48, 45, 97]⟩]
        [[48, 45, 48, 45, 97], [49]]).1.map Prod.snd = [0] ∧
    ((register_ids [some ⟨[48, 45, 48, 45, 97]⟩]
        [[48, 45, 48, 45, 97], [49]]).2 0).isSome = true := by
  have h := bus_intake_skip_and_reserve [some ⟨[48, 45, 48, 45, 97]⟩]
    [[48, 45, 48, 45, 97], [49]] (by decide)
  refine ⟨?_, ?_⟩
  · rw [h.2.2.2.1]
    decide
  · rw [h.2.2.2.2.2.2 0]
    decide

/-- findByte finds nothing exactly when the byte is absent. -/
theorem findByte_none_iff (t : Nat) (l : List Nat) :
    findByte t l = none ↔ t ∉ l := by
  induction l with
  | nil => simp [findByte]
  | cons b bs ih =>
    by_cases hb : b = t
    · subst hb
      simp [findByte]
    · simp only [findByte, if_neg hb, Option.map_eq_none', List.mem_cons]
      rw [ih]
      constructor
      · intro h hc
        rcases hc with hc | hc
        · exact hb hc.symm
        · exact h hc
      · intro h hc
        exact h (Or.inr hc)

/-- findByte returns the first occurrence: the byte is at that position and
nowhere before it. -/
theorem findByte_some_char (t : Nat) :
    ∀ (l : List Nat) (i : Nat), findByte t l = some i →
      i < l.length ∧ l.getD i 0 = t ∧ t ∉ l.take i := by
  intro l
  induction l with
  | nil => intro i h; cases h
  | cons b bs ih =>
    intro i h
    by_cases hb : b = t
    · subst hb
      have h0 : findByte b (b :: bs) = some 0 := by simp [findByte]
      rw [h0] at h
      injection h with h
      subst h
      simp
    · simp only [findByte, if_neg hb] at h
      rcases Option.map_eq_some'.mp h with ⟨j, hj, hji⟩
      obtain ⟨h1, h2, h3⟩ := ih j hj
      subst hji
      refine ⟨by simpa using h1, by simpa using h2, ?_⟩
      simp only [List.take_succ_cons, List.mem_cons]
      intro hc
      rcases hc with hc | hc
      · exact hb hc.symm
      · exact h3 hc

/-- C8: an inbound stream-mode bus message is split at the first space byte;
without a space, or with a non-UTF-8 address part, the message is rejected
and never becomes the pending response; when the address part differs from
the worker's instance_id the message is dropped and never becomes pending;
otherwise parsing proceeds from the byte just after the space, and the
parse result (if any) becomes pending. -/
theorem stream_mode_framing (instance_id msg : List Nat)
    (parse : Nat → Option Nat) :
    (findByte 32 msg = none → get_addr_and_offset msg = none ∧
        stream_intake_classify instance_id msg = .reject ∧
        stream_intake_pending instance_id msg parse = none) ∧
    (∀ pos, findByte 32 msg = some pos →
      ((32 : Nat) ∉ msg.take pos ∧ msg.getD pos 0 = 32) ∧
      (validUtf8 (msg.take pos) = false → get_addr_and_offset msg = none ∧
          stream_intake_classify instance_id msg = .reject ∧
          stream_intake_pending instance_id msg parse = none) ∧
      (validUtf8 (msg.take pos) = true →
        get_addr_and_offset msg = some (msg.take pos, pos + 1) ∧
        (msg.take pos ≠ instance_id →
            stream_intake_classify instance_id msg = .dropNotForUs ∧
            stream_intake_pending instance_id msg parse = none) ∧
        (msg.take pos = instance_id →
            stream_intake_classify instance_id msg =
              .proceed instance_id (pos + 1) ∧
            stream_intake_pending instance_id msg parse = parse (pos + 1)))) := by
  constructor
  · intro h
    have hga : get_addr_and_offset msg = none := by
      simp [get_addr_and_offset, h]
    exact ⟨hga, by simp [stream_intake_classify, hga],
      by simp [stream_intake_pending, stream_intake_classify, hga]⟩
  · intro pos h
    obtain ⟨_, h2, h3⟩ := findByte_some_char 32 msg pos h
    refine ⟨⟨h3, h2⟩, ?_, ?_⟩
    · intro hbad
      have hga : get_addr_and_offset msg = none := by
        simp [get_addr_and_offset, h, hbad]
      exact ⟨hga, by simp [stream_intake_classify, hga],
        by simp [stream_intake_pending, stream_intake_classify, hga]⟩
    · intro hok
      have hga : get_addr_and_offset msg = some (msg.take pos, pos + 1) := by
        simp [get_addr_and_offset, h, hok]
      refine ⟨hga, ?_, ?_⟩
      · intro hne
        have hcl : stream_intake_classify instance_id msg = .dropNotForUs := by
          simp [stream_intake_classify, hga, hne]
        exact ⟨hcl, by simp [stream_intake_pending, hcl]⟩
      · intro heq
        have hcl : stream_intake_classify instance_id msg =
            .proceed instance_id (pos + 1) := by
          simp [stream_intake_classify, hga, heq]
        exact ⟨hcl, by simp [stream_intake_pending, hcl]⟩

/-- Witness for stream_mode_framing on a concrete message: with
instance_id "i" and message "i x", the address part matches, parsing
proceeds from offset 2, and the parse result becomes pending; a message
without a space is rejected. -/
theorem stream_mode_framing_witness :
    get_addr_and_offset [105, 32, 120] = some ([105], 2) ∧
    stream_intake_pending [105] [105, 32, 120] (fun o => some (o + 40)) =
      some 42 ∧
    stream_intake_classify [105] [120, 121] = .reject := by
  have h := (stream_mode_framing [105] [105, 32, 120]
    (fun o => some (o + 40))).2 1 (by decide)
  have hok := h.2.2 (by decide)
  have hpr := hok.2.2 (by decide)
  refine ⟨hok.1, ?_, ?_⟩
  · rw [hpr.2]
  · have h2 := (stream_mode_framing [105] [120, 121]
      (fun o => some (o + 40))).1 (by decide)
    exact h2.2.1

/-- The decimal fold applied across an append. -/
theorem decValAux_append (l1 l2 : List Nat) (acc : Nat) :
    decValAux acc (l1 ++ l2) = decValAux (decValAux acc l1) l2 := by
  induction l1 generalizing acc with
  | nil => rfl
  | cons d ds ih => exact ih (acc * 10 + (d - 48))

/-- Core properties of the decimal renderer: accumulator independence,
digit range, non-emptiness, and the value computed back by the decimal
fold. -/
theorem natDec_props (n : Nat) :
    (∀ fuel, n < fuel → ∀ acc, natDecAux fuel n acc = natDec n ++ acc) ∧
    (∀ b ∈ natDec n, 48 ≤ b ∧ b ≤ 57) ∧ natDec n ≠ [] ∧
    (∀ a, decValAux a (natDec n) = a * 10 ^ (natDec n).length + n) := by
  induction n using Nat.strong_induction_on with
  | _ n ih =>
    by_cases h10 : n < 10
    · have hdec : natDec n = [48 + n] := by
        unfold natDec natDecAux
        rw [if_pos h10]
      refine ⟨?_, ?_, ?_, ?_⟩
      · intro fuel hf acc
        cases fuel with
        | zero => omega
        | succ f =>
          unfold natDecAux
          rw [if_pos h10, hdec]
          rfl
      · intro b hb
        rw [hdec] at hb
        simp only [List.mem_singleton] at hb
        omega
      · rw [hdec]
        simp
      · intro a
        rw [hdec]
        have h1 : decValAux a [48 + n] = a * 10 + (48 + n - 48) := rfl
        rw [h1, List.length_singleton, pow_one]
        omega
    · have hlt : n / 10 < n := Nat.div_lt_self (by omega) (by norm_num)
      obtain ⟨ihapp, ihdig, ihne, ihval⟩ := ih (n / 10) hlt
      have hdec : natDec n = natDec (n / 10) ++ [48 + n % 10] := by
        unfold natDec
        show natDecAux (n + 1) n [] = _
        cases hn : n + 1 with
        | zero => omega
        | succ f =>
          unfold natDecAux
          rw [if_neg h10]
          have hf : n / 10 < f := by omega
          exact ihapp f hf [48 + n % 10]
      refine ⟨?_, ?_, ?_, ?_⟩
      · intro fuel hf acc
        cases fuel with
        | zero => omega
        | succ f =>
          unfold natDecAux
          rw [if_neg h10]
          have hf' : n / 10 < f := by omega
          rw [ihapp f hf' ((48 + n % 10) :: acc), hdec]
          simp
      · intro b hb
        rw [hdec] at hb
        rcases List.mem_append.mp hb with hb' | hb'
        · exact ihdig b hb'
        · simp only [List.mem_singleton] at hb'
          have := Nat.mod_lt n (show 0 < 10 by norm_num)
          omega
      · rw [hdec]
        simp
      · intro a
        have hstep : ∀ x d : Nat, decValAux x [d] = x * 10 + (d - 48) :=
          fun x d => rfl
        rw [hdec, decValAux_append, ihval a, hstep, List.length_append,
          List.length_singleton]
        have hdm := Nat.div_add_mod n 10
        have hpow : 10 ^ ((natDec (n / 10)).length + 1) =
            10 ^ (natDec (n / 10)).length * 10 := pow_succ 10 _
        rw [hpow]
        have h48 : 48 + n % 10 - 48 = n % 10 := by omega
        rw [h48]
        ring_nf
        omega

/-- Hex renderer properties: accumulator independence and ASCII output. -/
theorem natHex_props (n : Nat) :
    (∀ fuel, n < fuel → ∀ acc, natHexAux fuel n acc = natHex n ++ acc) ∧
    (∀ b ∈ natHex n, b < 128) := by
  induction n using Nat.strong_induction_on with
  | _ n ih =>
    have hdb : ∀ d, d < 16 → hexDigitByte d < 128 := by
      intro d hd
      unfold hexDigitByte
      split <;> omega
    by_cases h16 : n < 16
    · have hdec : natHex n = [hexDigitByte n] := by
        unfold natHex natHexAux
        rw [if_pos h16]
      refine ⟨?_, ?_⟩
      · intro fuel hf acc
        cases fuel with
        | zero => omega
        | succ f =>
          unfold natHexAux
          rw [if_pos h16, hdec]
          rfl
      · intro b hb
        rw [hdec] at hb
        simp only [List.mem_singleton] at hb
        subst hb
        exact hdb n h16
    · have hlt : n / 16 < n := Nat.div_lt_self (by omega) (by norm_num)
      obtain ⟨ihapp, ihdig⟩ := ih (n / 16) hlt
      have hdec : natHex n = natHex (n / 16) ++ [hexDigitByte (n % 16)] := by
        unfold natHex
        show natHexAux (n + 1) n [] = _
        cases hn : n + 1 with
        | zero => omega
        | succ f =>
          unfold natHexAux
          rw [if_neg h16]
          exact ihapp f (by omega) [hexDigitByte (n % 16)]
      refine ⟨?_, ?_⟩
      · intro fuel hf acc
        cases fuel with
        | zero => omega
        | succ f =>
          unfold natHexAux
          rw [if_neg h16]
          rw [ihapp f (by omega) (hexDigitByte (n % 16) :: acc), hdec]
          simp
      · intro b hb
        rw [hdec] at hb
        rcases List.mem_append.mp hb with hb' | hb'
        · exact ihdig b hb'
        · simp only [List.mem_singleton] at hb'
          subst hb'
          exact hdb _ (Nat.mod_lt n (by norm_num))

/-- findByte over a clean portion followed by the target byte. -/
theorem findByte_append_first (t : Nat) :
    ∀ (l1 l2 : List Nat), t ∉ l1 →
      findByte t (l1 ++ t :: l2) = some l1.length := by
  intro l1
  induction l1 with
  | nil => intro l2 _; simp [findByte]
  | cons b bs ih =>
    intro l2 h
    have hb : ¬b = t := fun hc => h (by rw [hc]; exact List.mem_cons_self _ _)
    simp only [List.cons_append, findByte, if_neg hb, List.append_eq]
    rw [ih l2 (fun hc => h (List.mem_cons_of_mem _ hc))]
    rfl

/-- One step of the UTF-8 validator on an ASCII head byte. -/
theorem validUtf8_cons_ascii (b : Nat) (bs : List Nat) (hb : b < 128) :
    validUtf8 (b :: bs) = validUtf8 bs := by
  unfold validUtf8
  rw [utf8Go]
  simp only [if_pos hb]

/-- A pure-ASCII byte string is valid UTF-8. -/
theorem validUtf8_ascii : ∀ l : List Nat, (∀ b ∈ l, b < 128) →
    validUtf8 l = true := by
  intro l
  induction l with
  | nil => intro _; rfl
  | cons b bs ih =>
    intro h
    have hb : b < 128 := h b (List.mem_cons_self _ _)
    rw [validUtf8_cons_ascii b bs hb]
    exact ih (fun x hx => h x (List.mem_cons_of_mem _ hx))

/-- parseUsize on a nonempty all-digit segment returns the decimal value
when it fits in 64 bits. -/
theorem parseUsize_digits (l : List Nat) (hne : l ≠ [])
    (hd : ∀ b ∈ l, 48 ≤ b ∧ b ≤ 57) (hv : decValAux 0 l < 2 ^ 64) :
    parseUsize l = some (decValAux 0 l) := by
  cases l with
  | nil => exact absurd rfl hne
  | cons d ds =>
    have hd0 := hd d (List.mem_cons_self _ _)
    have hall : (d :: ds).all isDigitByte = true := by
      rw [List.all_eq_true]
      intro x hx
      have := hd x hx
      simp only [isDigitByte, Bool.and_eq_true, decide_eq_true_eq]
      omega
    unfold parseUsize
    simp only
    rw [if_neg (by omega : ¬d = 43)]
    rw [if_pos ⟨by simp, hall⟩, if_pos hv]

/-- C6: for every worker id, slot key and cid whose rendering fits the
32-byte id buffer (so the write in gen_id does not panic) and whose slot
key fits in usize, gen_id produces the ASCII string
worker_id-slot_key-cid_hex of at most 32 bytes, and get_key recovers
exactly the slot key from it; get_key returns Err on any input with fewer
than two minus bytes, and on any input whose middle segment does not parse
as an unsigned decimal integer. -/
theorem session_id_round_trip :
    (∀ wid ckey cid : Nat, ckey < 2 ^ 64 →
      (natDec wid ++ [45] ++ natDec ckey ++ [45] ++ natHex cid).length ≤ 32 →
      ∃ s, gen_id wid ckey cid = some s ∧
        s = natDec wid ++ [45] ++ natDec ckey ++ [45] ++ natHex cid ∧
        s.length ≤ 32 ∧ (∀ b ∈ s, b < 128) ∧ get_key s = some ckey) ∧
    (∀ id : List Nat, id.count 45 ≤ 1 → get_key id = none) ∧
    (∀ (id : List Nat) (i1 j : Nat), findByte 45 id = some i1 →
        findByte 45 (id.drop (i1 + 1)) = some j →
        parseUsize ((id.drop (i1 + 1)).take j) = none →
        get_key id = none) := by
  refine ⟨?_, ?_, ?_⟩
  · intro wid ckey cid hck hfit
    obtain ⟨_, hdigW, _, _⟩ := natDec_props wid
    obtain ⟨_, hdigC, hneC, hvalC⟩ := natDec_props ckey
    obtain ⟨_, hhex⟩ := natHex_props cid
    set s := natDec wid ++ [45] ++ natDec ckey ++ [45] ++ natHex cid with hs
    have hgen : gen_id wid ckey cid = some s := by
      unfold gen_id
      rw [if_pos hfit]
    have hascii : ∀ b ∈ s, b < 128 := by
      intro b hb
      rw [hs] at hb
      rcases List.mem_append.mp hb with hb | hb
      · rcases List.mem_append.mp hb with hb | hb
        · rcases List.mem_append.mp hb with hb | hb
          · rcases List.mem_append.mp hb with hb | hb
            · have := hdigW b hb
              omega
            · simp only [List.mem_singleton] at hb
              omega
          · have := hdigC b hb
            omega
        · simp only [List.mem_singleton] at hb
          omega
      · exact hhex b hb
    refine ⟨s, hgen, rfl, hfit, hascii, ?_⟩
    have hnodashW : (45 : Nat) ∉ natDec wid := by
      intro hc
      have := hdigW 45 hc
      omega
    have hnodashC : (45 : Nat) ∉ natDec ckey := by
      intro hc
      have := hdigC 45 hc
      omega
    have hsplit : s = natDec wid ++ 45 :: (natDec ckey ++ 45 :: natHex cid) := by
      rw [hs]
      simp
    have hfb1 : findByte 45 s = some (natDec wid).length := by
      rw [hsplit]
      exact findByte_append_first 45 (natDec wid) _ hnodashW
    have hdropped : s.drop ((natDec wid).length + 1) =
        natDec ckey ++ 45 :: natHex cid := by
      rw [hsplit]
      have : natDec wid ++ 45 :: (natDec ckey ++ 45 :: natHex cid) =
          (natDec wid ++ [45]) ++ (natDec ckey ++ 45 :: natHex cid) := by
        simp
      rw [this]
      have hlen : (natDec wid).length + 1 = (natDec wid ++ [45]).length := by
        simp
      rw [hlen, List.drop_left]
    have hfb2 : findByte 45 (natDec ckey ++ 45 :: natHex cid) =
        some (natDec ckey).length :=
      findByte_append_first 45 (natDec ckey) _ hnodashC
    have htaken : (natDec ckey ++ 45 :: natHex cid).take (natDec ckey).length =
        natDec ckey := List.take_left _ _
    have hparse : parseUsize (natDec ckey) = some ckey := by
      have hv0 : decValAux 0 (natDec ckey) = ckey := by
        rw [hvalC 0]
        simp
      rw [parseUsize_digits (natDec ckey) hneC hdigC (by rw [hv0]; exact hck),
        hv0]
    unfold get_key
    rw [hfb1]
    simp only [hdropped, hfb2, htaken]
    rw [validUtf8_ascii (natDec ckey)
      (fun b hb => by have := hdigC b hb; omega)]
    rw [if_pos rfl]
    exact hparse
  · intro id hcount
    cases hfb : findByte 45 id with
    | none =>
      unfold get_key
      rw [hfb]
    | some i1 =>
      obtain ⟨hlt, hat, hnotin⟩ := findByte_some_char 45 id i1 hfb
      have hdecomp : id = id.take i1 ++ 45 :: id.drop (i1 + 1) := by
        have h1 : id = id.take i1 ++ id.drop i1 := (List.take_append_drop _ _).symm
        have h2 : id.drop i1 = id.getD i1 0 :: id.drop (i1 + 1) := by
          rw [List.getD_eq_getElem?_getD, List.getElem?_eq_getElem hlt]
          exact List.drop_eq_getElem_cons hlt
        rw [hat] at h2
        rw [h2] at h1
        exact h1
      have hrest : (45 : Nat) ∉ id.drop (i1 + 1) := by
        intro hc
        have hcnt : id.count 45 =
            (id.take i1).count 45 + 1 + (id.drop (i1 + 1)).count 45 := by
          conv_lhs => rw [hdecomp]
          rw [List.count_append, List.count_cons]
          simp
          omega
        have hpos : 0 < (id.drop (i1 + 1)).count 45 :=
          List.count_pos_iff.mpr hc
        omega
      have hfb2 : findByte 45 (id.drop (i1 + 1)) = none :=
        (findByte_none_iff 45 _).mpr hrest
      unfold get_key
      rw [hfb]
      simp only [hfb2]
  · intro id i1 j hfb1 hfb2 hparse
    unfold get_key
    rw [hfb1]
    simp only [hfb2]
    split
    · exact hparse
    · rfl

/-- Witness for session_id_round_trip at worker 1, slot key 5, cid 10: the
generated id is "1-5-a" and get_key recovers 5; "1-5" (one minus byte) and
"a-b-c" (non-decimal middle) give Err. -/
theorem session_id_round_trip_witness :
    gen_id 1 5 10 = some [49, 45, 53, 45, 97] ∧
    get_key [49, 45, 53, 45, 97] = some 5 ∧
    get_key [49, 45, 53] = none ∧
    get_key [97, 45, 98, 45, 99] = none := by
  obtain ⟨s, hgen, hform, _, _, hget⟩ :=
    (session_id_round_trip).1 1 5 10 (by norm_num) (by decide)
  have hs : s = [49, 45, 53, 45, 97] := by
    rw [hform]
    decide
  refine ⟨by rw [hgen, hs], by rw [← hs, hget], ?_, ?_⟩
  · exact (session_id_round_trip).2.1 [49, 45, 53] (by decide)
  · exact (session_id_round_trip).2.2 [97, 45, 98, 45, 99] 1 1
      (by decide) (by decide) (by decide)

/-- A slab of empty inboxes retains nothing. -/
theorem filterMap_id_replicate_none (n : Nat) :
    (List.replicate n (none : Option Nat)).filterMap id = [] := by
  induction n with
  | zero => rfl
  | succ m ih => simp [List.replicate_succ, ih]

/-- Retained responses of a list of inboxes, as elements. -/
theorem mem_filterMap_id {l : List (Option Nat)} {x : Nat} :
    x ∈ l.filterMap id ↔ some x ∈ l := by
  rw [List.mem_filterMap]
  constructor
  · rintro ⟨a, ha, rfl⟩
    exact ha
  · intro h
    exact ⟨some x, h, rfl⟩

/-- Every fan-out step keeps the retained-response count within the scratch
arena bound. -/
theorem fanout_step_retained (l : FanoutLabel) (s s' : FanoutState)
    (h : FanoutStep l s s')
    (hb : s.retainedCount ≤ MSG_RETAINED_MAX) :
    s'.retainedCount ≤ MSG_RETAINED_MAX := by
  cases h with
  | busRead s msg targets hp hpend hread harena =>
    unfold FanoutState.retainedCount at harena ⊢
    rw [hpend] at harena
    simp only [Option.toList_none, List.nil_append] at harena
    simp only [Option.toList_some, List.cons_append, List.nil_append,
      List.toFinset_cons]
    calc (insert msg (s.inboxes.filterMap id).toFinset).card
        ≤ (s.inboxes.filterMap id).toFinset.card + 1 :=
          Finset.card_insert_le _ _
      _ ≤ MSG_RETAINED_MAX := by omega
  | busPanic s msg hp hpend hread harena => exact hb
  | busBlock s hp => exact hb
  | deliverOk s msg k rest hp hpend hsend hfree =>
    unfold FanoutState.retainedCount at hb ⊢
    refine le_trans (Finset.card_le_card ?_) hb
    intro x hx
    simp only [List.mem_toFinset, List.mem_append] at hx ⊢
    rcases hx with hx | hx
    · exact Or.inl hx
    · rw [mem_filterMap_id] at hx
      rcases List.mem_or_eq_of_mem_set hx with hx' | hx'
      · exact Or.inr (mem_filterMap_id.mpr hx')
      · injection hx' with hx''
        subst hx''
        rw [hpend]
        simp
  | deliverFull s msg k rest hp hpend hsend hfull => exact hb
  | clearPending s msg hp hpend hsend hwait =>
    unfold FanoutState.retainedCount at hb ⊢
    refine le_trans (Finset.card_le_card ?_) hb
    intro x hx
    simp only [List.mem_toFinset, List.mem_append] at hx ⊢
    simp only [Option.toList_none, List.not_mem_nil, false_or] at hx
    exact Or.inr hx
  | rearm s k hp hmem => exact hb
  | consume s k msg hp hbox =>
    unfold FanoutState.retainedCount at hb ⊢
    refine le_trans (Finset.card_le_card ?_) hb
    intro x hx
    simp only [List.mem_toFinset, List.mem_append] at hx ⊢
    rcases hx with hx | hx
    · exact Or.inl hx
    · rw [mem_filterMap_id] at hx
      rcases List.mem_or_eq_of_mem_set hx with hx' | hx'
      · exact Or.inr (mem_filterMap_id.mpr hx')
      · cases hx'

/-- C1: in the per-mode fan-out subsystem, a bus read can fire only while
the mode's pending slot is empty (the intake loop is guarded on it), and in
every reachable state the number of distinct retained parsed bus responses
is at most MSG_RETAINED_MAX = 1 + RESP_SENDER_BOUND = 2: the pending one
plus clones in the capacity-1 per-connection inboxes, counted through the
two-slot scratch arena whose exhaustion aborts the worker before a third
response could be parsed. -/
theorem fanout_backpressure (n : Nat) :
    (∀ (s s' : FanoutState) (msg : Nat) (targets : List Nat),
        FanoutStep (.busRead msg targets) s s' → s.pending = none) ∧
    (∀ s : FanoutState, FanoutReachable n s →
        s.retainedCount ≤ MSG_RETAINED_MAX) := by
  constructor
  · intro s s' msg targets h
    cases h with
    | busRead s msg targets hp hpend hread harena => exact hpend
  · intro s hreach
    induction hreach with
    | refl =>
      unfold FanoutState.retainedCount FanoutState.init
      simp [filterMap_id_replicate_none]
    | tail hsteps hstep ih =>
      obtain ⟨l, hl⟩ := hstep
      exact fanout_step_retained l _ _ hl ih

/-- Witness for fanout_backpressure: the initial one-connection state, and
the state just after a bus read of message 7 targeting slot 0, both respect
the retention bound; the read step itself fires from an empty pending
slot. -/
theorem fanout_backpressure_witness :
    (FanoutState.init 1).retainedCount ≤ MSG_RETAINED_MAX ∧
    ({ FanoutState.init 1 with pending := some 7, sending := [0] } :
        FanoutState).retainedCount ≤ MSG_RETAINED_MAX := by
  constructor
  · exact (fanout_backpressure 1).2 _ Relation.ReflTransGen.refl
  · refine (fanout_backpressure 1).2 _ (Relation.ReflTransGen.single ?_)
    exact ⟨.busRead 7 [0],
      FanoutStep.busRead (FanoutState.init 1) 7 [0] rfl rfl rfl (by decide)⟩

end Condure
